import Mathlib

/-
Verification development for the lock-free MPMC bounded queue of
src/include/mpmc_queue.hpp (template class mpmc::MPMCQueue<T, Capacity>).

The queue is a ring of `Capacity` cells, each holding an atomic sequence
counter and a payload; `head_` and `tail_` are monotonically increasing
cursors, and the physical slot of position `pos` is `pos & (Capacity - 1)`.

Embedding choices:
  * `size_t` counters are modeled as `Nat`.  The spec calls the cursors
    "unbounded (wrapping arithmetic tolerated) monotonic counters"; none of
    the properties below drives a counter anywhere near 2^64, so the wrap
    of the machine word is not modeled.
  * the `intptr_t` difference `(intptr_t)seq - (intptr_t)pos` is modeled as
    subtraction in `Int` of the two natural counters, which coincides with
    the source for all values below 2^63.
  * the buffer is a total function from physical index; only indices
    `pos &&& (Capacity - 1) < Capacity` are ever read or written.
  * single-threaded (sequential) semantics: the queue is touched by no other
    thread during a call, so an attempted `compare_exchange_weak` whose
    expected value matches is modeled as succeeding deterministically, and a
    reload of the cursor returns the value already read.  Consequently the
    `diff > 0` branch of either retry loop reloads an unchanged cursor and
    repeats the very same iteration forever: the loop diverges.  A call is
    therefore modeled by its first loop iteration, with an explicit `spin`
    result for the diverging branch; the fueled loops `enqueue_loop` /
    `dequeue_loop` below embed the literal `for (;;)` and are proved to agree.
-/

namespace MPMC

/-- Pointwise update of a buffer modeled as a function out of the physical
index; `upd f i v` is the buffer `f` with cell `i` overwritten by `v`. -/
def upd {β : Type} (f : Nat → β) (i : Nat) (v : β) : Nat → β :=
  fun j => if j = i then v else f j

/-- State of `mpmc::MPMCQueue<T, Capacity>`: the two cursors `head_` and
`tail_` and, for every physical cell of `buffer_`, its `sequence` counter
and its `data` payload. -/
structure MPMCQueue (α : Type) where
  head : Nat
  tail : Nat
  seq : Nat → Nat
  data : Nat → α

/-- The constructor `MPMCQueue()`: `head_ = tail_ = 0` and
`buffer_[i].sequence = i`.  The payloads are default-initialized; `d` stands
for that arbitrary initial payload value. -/
def initQueue {α : Type} (d : α) : MPMCQueue α :=
  { head := 0, tail := 0, seq := fun i => i, data := fun _ => d }

/-- Outcome of one call of a sequential retry loop: either the loop exits
with result `r`, or it takes the reload-and-retry branch, which under
single-threaded semantics repeats the identical iteration forever. -/
inductive LoopResult (β : Type) where
  | done (r : β)
  | spin
deriving Repr

/-- The queue state written by a successful `enqueue_impl` claiming position
`q.head`: the cursor advances by one, the payload is stored in cell
`head & (Capacity - 1)`, and that cell's sequence is published as
`head + 1`. -/
def enqState {α : Type} (N : Nat) (q : MPMCQueue α) (x : α) : MPMCQueue α :=
  { head := q.head + 1, tail := q.tail,
    seq := upd q.seq (q.head &&& (N - 1)) (q.head + 1),
    data := upd q.data (q.head &&& (N - 1)) x }

/-- The queue state written by a successful `try_dequeue` claiming position
`q.tail`: the cursor advances by one and the cell's sequence is re-armed as
`tail + Capacity` for the next generation's producer.  The payload cell is
moved from but never read again before being overwritten, so the model
leaves it in place. -/
def deqState {α : Type} (N : Nat) (q : MPMCQueue α) : MPMCQueue α :=
  { head := q.head, tail := q.tail + 1,
    seq := upd q.seq (q.tail &&& (N - 1)) (q.tail + N),
    data := q.data }

/-- Sequential semantics of `enqueue_impl` (mpmc_queue.hpp:153-178) for
capacity `N`: load `pos = head_`, read the sequence of cell
`pos & (N - 1)`, and branch on `diff = (intptr_t)seq - (intptr_t)pos`.
`diff = 0` claims the slot (the CAS on `head_` cannot fail
single-threadedly), writes the payload and publishes `seq = pos + 1`;
`diff < 0` reports the queue full with no write at all; `diff > 0` reloads
the unchanged `head_` and repeats forever (`spin`). -/
def enqueue_impl {α : Type} (N : Nat) (q : MPMCQueue α) (x : α) :
    LoopResult (Bool × MPMCQueue α) :=
  let pos := q.head
  let s := q.seq (pos &&& (N - 1))
  let diff : Int := (s : Int) - (pos : Int)
  if diff = 0 then LoopResult.done (true, enqState N q x)
  else if diff < 0 then LoopResult.done (false, q)
  else LoopResult.spin

/-- `try_enqueue` (both the copy and the move overload) simply forwards to
`enqueue_impl`; under value semantics the two overloads coincide. -/
def try_enqueue {α : Type} (N : Nat) (q : MPMCQueue α) (x : α) :
    LoopResult (Bool × MPMCQueue α) :=
  enqueue_impl N q x

/-- Sequential semantics of `try_dequeue` (mpmc_queue.hpp:85-110) for
capacity `N`, with `out` the value held by the caller's output variable
`item` before the call: load `pos = tail_`, read the sequence of cell
`pos & (N - 1)`, branch on `diff = (intptr_t)seq - (intptr_t)(pos + 1)`.
`diff = 0` claims the slot, moves the payload into the output and re-arms
`seq = pos + N`; `diff < 0` reports the queue empty, leaving the output
variable and the queue untouched; `diff > 0` reloads the unchanged `tail_`
and repeats forever (`spin`). -/
def try_dequeue {α : Type} (N : Nat) (q : MPMCQueue α) (out : α) :
    LoopResult (Bool × α × MPMCQueue α) :=
  let pos := q.tail
  let s := q.seq (pos &&& (N - 1))
  let diff : Int := (s : Int) - ((pos : Int) + 1)
  if diff = 0 then LoopResult.done (true, q.data (pos &&& (N - 1)), deqState N q)
  else if diff < 0 then LoopResult.done (false, out, q)
  else LoopResult.spin

/-- `size_approx()` (mpmc_queue.hpp:128-132): `head >= tail ? head - tail : 0`. -/
def size_approx {α : Type} (q : MPMCQueue α) : Nat :=
  if q.head ≥ q.tail then q.head - q.tail else 0

/-- `empty_approx()` (mpmc_queue.hpp:142-144): `size_approx() == 0`. -/
def empty_approx {α : Type} (q : MPMCQueue α) : Bool :=
  size_approx q == 0

/-- The literal `for (;;)` loop of `enqueue_impl`, with the loop variable
`pos` and explicit fuel.  The compare-exchange on `head_` is the test
`q.head = pos`; on failure `pos` is updated to the current cursor, exactly
as `compare_exchange_weak` does, and on the `diff > 0` branch `pos` is
reloaded from the (sequentially unchanged) cursor. -/
def enqueue_loop {α : Type} (N : Nat) (q : MPMCQueue α) (x : α) :
    Nat → Nat → Option (Bool × MPMCQueue α)
  | _, 0 => none
  | pos, fuel + 1 =>
    let s := q.seq (pos &&& (N - 1))
    let diff : Int := (s : Int) - (pos : Int)
    if diff = 0 then
      if q.head = pos then
        some (true, { head := pos + 1, tail := q.tail,
                      seq := upd q.seq (pos &&& (N - 1)) (pos + 1),
                      data := upd q.data (pos &&& (N - 1)) x })
      else enqueue_loop N q x q.head fuel
    else if diff < 0 then some (false, q)
    else enqueue_loop N q x q.head fuel

/-- The literal `for (;;)` loop of `try_dequeue`, with the loop variable
`pos` and explicit fuel; the compare-exchange on `tail_` is the test
`q.tail = pos`. -/
def dequeue_loop {α : Type} (N : Nat) (q : MPMCQueue α) (out : α) :
    Nat → Nat → Option (Bool × α × MPMCQueue α)
  | _, 0 => none
  | pos, fuel + 1 =>
    let s := q.seq (pos &&& (N - 1))
    let diff : Int := (s : Int) - ((pos : Int) + 1)
    if diff = 0 then
      if q.tail = pos then
        some (true, q.data (pos &&& (N - 1)),
              { head := q.head, tail := pos + 1,
                seq := upd q.seq (pos &&& (N - 1)) (pos + N),
                data := q.data })
      else dequeue_loop N q out q.tail fuel
    else if diff < 0 then some (false, out, q)
    else dequeue_loop N q out q.tail fuel

/-- A single-threaded client operation: one `try_enqueue x` or one
`try_dequeue` call. -/
inductive Op (α : Type) where
  | enq (x : α)
  | deq

/-- Run a list of operations sequentially from state `q`, with `d` the
initial value of the consumer's output variable.  Returns `none` when some
call diverges (takes the `spin` branch); otherwise returns the final state,
the list of values successfully enqueued (in call order) and the list of
values successfully dequeued (in call order).  Failed calls (`false`
returns) contribute nothing to either list. -/
def run {α : Type} (N : Nat) (d : α) :
    List (Op α) → MPMCQueue α → Option (MPMCQueue α × List α × List α)
  | [], q => some (q, [], [])
  | Op.enq x :: ops, q =>
    match try_enqueue N q x with
    | LoopResult.spin => none
    | LoopResult.done (ok, q1) =>
      match run N d ops q1 with
      | none => none
      | some (q2, E, D) => some (q2, if ok then x :: E else E, D)
  | Op.deq :: ops, q =>
    match try_dequeue N q d with
    | LoopResult.spin => none
    | LoopResult.done (ok, y, q1) =>
      match run N d ops q1 with
      | none => none
      | some (q2, E, D) => some (q2, E, if ok then y :: D else D)

/-- The operations of one fill phase of cycle `c`: enqueue the `N` distinct
values `c*N, c*N+1, …, c*N+N-1`. -/
def fillOps (N c : Nat) : List (Op Nat) :=
  (List.range N).map (fun j => Op.enq (c * N + j))

/-- The operations of one drain phase: `N` consecutive dequeues. -/
def drainOps (N : Nat) : List (Op Nat) :=
  List.replicate N Op.deq

/-- `m` complete fill-to-capacity / drain-to-empty cycles. -/
def cycleOps (N m : Nat) : List (Op Nat) :=
  ((List.range m).map (fun c => fillOps N c ++ drainOps N)).flatten

/-- The values enqueued by `cycleOps N m`, in order. -/
def cycleVals (N m : Nat) : List Nat :=
  ((List.range m).map (fun c => (List.range N).map (fun j => c * N + j))).flatten

/-- Slot-sequence invariant of the quiesced queue (capacity `N`): the
cursors satisfy `tail ≤ head ≤ tail + N`, and for every ring position `p`
of the current window `[tail, tail + N)`, the sequence counter of the
physical cell `p % N` is `p + 1` when position `p` holds a pending value
(`p < head`, slot FILLED for `p`) and `p` otherwise (slot AVAILABLE for the
producer of position `p`). -/
def Inv {α : Type} (N : Nat) (q : MPMCQueue α) : Prop :=
  q.tail ≤ q.head ∧ q.head ≤ q.tail + N ∧
  ∀ p, q.tail ≤ p → p < q.tail + N →
    q.seq (p % N) = if p < q.head then p + 1 else p

/-- Representation relation: the quiesced queue `q` of capacity `N`
represents the abstract FIFO list `L` (front at the head of the list).
`Inv` holds, the window `[tail, head)` has exactly `L.length` positions,
and position `tail + j` physically stores `L[j]`. -/
def Rep {α : Type} (N : Nat) (q : MPMCQueue α) (L : List α) : Prop :=
  Inv N q ∧ q.head = q.tail + L.length ∧
  ∀ j (hj : j < L.length), q.data ((q.tail + j) % N) = L[j]

/-- The corrupted states reachable only at capacity 1: an enqueue on the
full queue succeeded (overwriting the pending element), leaving cell 0 with
a sequence at least `tail + 2`, so that no dequeue can ever succeed again.
`L` still records head-minus-tail many logically enqueued values. -/
def Broken {α : Type} (N : Nat) (q : MPMCQueue α) (L : List α) : Prop :=
  N = 1 ∧ q.tail + 2 ≤ q.seq 0 ∧ q.head = q.tail + L.length

/-- Simulation invariant tying a queue state to the abstract list of its
pending values: either the representation relation holds, or (capacity 1
only) the state is corrupted. -/
def Sim {α : Type} (N : Nat) (q : MPMCQueue α) (L : List α) : Prop :=
  Rep N q L ∨ Broken N q L

/-- The capacity-1 queue after `try_enqueue 7` and `try_enqueue 8` from a
fresh queue: the second enqueue found `sequence == pos` again (since
`pos + 1 ≡ pos (mod 1)`) and overwrote the pending element. -/
def qCap1Two : MPMCQueue Nat :=
  enqState 1 (enqState 1 (initQueue 0) 7) 8

/-- A full capacity-2 queue, reached from a fresh queue by enqueueing 4
then 5. -/
def qFull2 : MPMCQueue Nat :=
  enqState 2 (enqState 2 (initQueue 0) 4) 5

/-- The capacity-2 queue reached from a fresh queue by the completed run
`try_enqueue 3; try_enqueue 4; try_dequeue` (it still holds the value 4). -/
def qObs : MPMCQueue Nat :=
  ⟨2, 1, upd (upd (upd (fun i => i) 0 1) 1 2) 0 2, upd (upd (fun _ => 0) 0 3) 1 4⟩

/-- For a power-of-two capacity the bit mask computes the ring index:
`p &&& (Capacity - 1) = p % Capacity`. -/
theorem mask_two_pow (k p : Nat) : p &&& (2 ^ k - 1) = p % 2 ^ k :=
  Nat.and_pow_two_sub_one_eq_mod p k

/-- Within one window of `N` consecutive positions, the ring index
determines the position. -/
theorem mod_window_inj {N t a b : Nat}
    (ha1 : t ≤ a) (ha2 : a < t + N) (hb1 : t ≤ b) (hb2 : b < t + N)
    (hab : a % N = b % N) : a = b := by
  rcases Nat.le_total a b with h | h
  · have hdvd : N ∣ b - a := (Nat.modEq_iff_dvd' h).mp hab
    have h0 : b - a = 0 := Nat.eq_zero_of_dvd_of_lt hdvd (by omega)
    omega
  · have hdvd : N ∣ a - b := (Nat.modEq_iff_dvd' h).mp hab.symm
    have h0 : a - b = 0 := Nat.eq_zero_of_dvd_of_lt hdvd (by omega)
    omega

/-- The freshly constructed queue satisfies the slot-sequence invariant. -/
theorem Inv_initQueue {α : Type} (N : Nat) (d : α) : Inv N (initQueue d) := by
  refine ⟨Nat.le_refl _, Nat.zero_le _, ?_⟩
  intro p hp1 hp2
  have hpN : p < N := by simpa [initQueue] using hp2
  simp [initQueue, Nat.mod_eq_of_lt hpN]

/-- The freshly constructed queue represents the empty FIFO. -/
theorem Rep_initQueue {α : Type} (N : Nat) (d : α) : Rep N (initQueue d) [] := by
  refine ⟨Inv_initQueue N d, by simp [initQueue], ?_⟩
  intro j hj
  simp at hj

/-- Behavior of `enqueue_impl` on a quiesced non-full queue: it claims
position `head` and succeeds. -/
theorem enq_not_full {α : Type} {N : Nat} {q : MPMCQueue α}
    (hmask : ∀ p : Nat, p &&& (N - 1) = p % N)
    (hI : Inv N q) (hlt : q.head < q.tail + N) (x : α) :
    enqueue_impl N q x = LoopResult.done (true, enqState N q x) := by
  have hs : q.seq (q.head % N) = q.head := by
    have h := hI.2.2 q.head hI.1 hlt
    simpa using h
  simp only [enqueue_impl, hmask, hs]
  simp

/-- Behavior of `enqueue_impl` on a quiesced full queue of capacity at
least 2: the probed cell still holds `sequence = tail + 1`, the difference
`1 - N` is negative, and the call fails with no write. -/
theorem enq_full {α : Type} {N : Nat} {q : MPMCQueue α}
    (hmask : ∀ p : Nat, p &&& (N - 1) = p % N)
    (hI : Inv N q) (h2 : 2 ≤ N) (heq : q.head = q.tail + N) (x : α) :
    enqueue_impl N q x = LoopResult.done (false, q) := by
  have hs : q.seq (q.head % N) = q.tail + 1 := by
    have hmod : q.head % N = q.tail % N := by rw [heq, Nat.add_mod_right]
    have ht := hI.2.2 q.tail (Nat.le_refl _) (by omega)
    rw [hmod, ht, if_pos (by omega)]
  simp only [enqueue_impl, hmask, hs]
  have hne : ((q.tail + 1 : Nat) : Int) - (q.head : Int) ≠ 0 := by
    push_cast
    omega
  have hneg : ((q.tail + 1 : Nat) : Int) - (q.head : Int) < 0 := by
    push_cast
    omega
  rw [if_neg hne, if_pos hneg]

/-- Behavior of `try_dequeue` on a quiesced non-empty queue: it claims
position `tail` and succeeds, returning the payload of cell `tail % N`. -/
theorem deq_nonempty {α : Type} {N : Nat} {q : MPMCQueue α}
    (hmask : ∀ p : Nat, p &&& (N - 1) = p % N)
    (hI : Inv N q) (hlt : q.tail < q.head) (out : α) :
    try_dequeue N q out = LoopResult.done (true, q.data (q.tail % N), deqState N q) := by
  have hs : q.seq (q.tail % N) = q.tail + 1 := by
    have hwin : q.tail < q.tail + N := by have := hI.2.1; omega
    have ht := hI.2.2 q.tail (Nat.le_refl _) hwin
    rw [ht, if_pos hlt]
  have h0 : ((q.tail + 1 : Nat) : Int) - ((q.tail : Int) + 1) = 0 := by
    push_cast
    ring
  simp only [try_dequeue, hmask, hs, h0]
  simp

/-- Behavior of `try_dequeue` on a quiesced empty queue: the probed cell
holds `sequence = tail`, the difference is `-1`, and the call fails leaving
the output variable and the queue untouched. -/
theorem deq_empty {α : Type} {N : Nat} {q : MPMCQueue α}
    (hmask : ∀ p : Nat, p &&& (N - 1) = p % N) (hN : 0 < N)
    (hI : Inv N q) (heq : q.tail = q.head) (out : α) :
    try_dequeue N q out = LoopResult.done (false, out, q) := by
  have hs : q.seq (q.tail % N) = q.tail := by
    have ht := hI.2.2 q.tail (Nat.le_refl _) (by omega)
    rw [ht, if_neg (by omega)]
  simp only [try_dequeue, hmask, hs]
  have hne : ((q.tail : Nat) : Int) - ((q.tail : Int) + 1) ≠ 0 := by
    omega
  have hneg : ((q.tail : Nat) : Int) - ((q.tail : Int) + 1) < 0 := by
    omega
  rw [if_neg hne, if_pos hneg]

/-- Updating cell `i` then reading cell `i` yields the written value. -/
theorem upd_same {β : Type} (f : Nat → β) (i : Nat) (v : β) : upd f i v i = v := by
  simp [upd]

/-- Updating cell `i` leaves every other cell unchanged. -/
theorem upd_ne {β : Type} (f : Nat → β) {i j : Nat} (h : j ≠ i) (v : β) :
    upd f i v j = f j := by
  simp [upd, h]

/-- A successful enqueue on a non-full queue appends the value to the
abstract FIFO list. -/
theorem Rep_enq {α : Type} {N : Nat} {q : MPMCQueue α} {L : List α}
    (hmask : ∀ p : Nat, p &&& (N - 1) = p % N)
    (hR : Rep N q L) (hlt : q.head < q.tail + N) (x : α) :
    Rep N (enqState N q x) (L ++ [x]) := by
  obtain ⟨hI, hlen, hdata⟩ := hR
  refine ⟨⟨?_, ?_, ?_⟩, ?_, ?_⟩
  · simp only [enqState]
    have := hI.1
    omega
  · simp only [enqState]
    omega
  · intro p hp1 hp2
    simp only [enqState] at hp1 hp2 ⊢
    simp only [hmask]
    by_cases hph : p = q.head
    · subst hph
      rw [upd_same, if_pos (by omega)]
    · have hne : p % N ≠ q.head % N := by
        intro hmm
        exact hph (mod_window_inj hp1 hp2 hI.1 hlt hmm)
      rw [upd_ne _ hne, hI.2.2 p hp1 hp2]
      split_ifs <;> omega
  · simp only [enqState, List.length_append, List.length_cons, List.length_nil]
    omega
  · intro j hj
    simp only [enqState, List.length_append, List.length_cons, List.length_nil] at hj ⊢
    simp only [hmask]
    by_cases hjL : j = L.length
    · subst hjL
      have hidx : (q.tail + L.length) % N = q.head % N := by rw [hlen]
      rw [hidx, upd_same]
      rw [List.getElem_append_right (Nat.le_refl _)]
      simp
    · have hjlt : j < L.length := by omega
      have hne : (q.tail + j) % N ≠ q.head % N := by
        intro hmm
        have hj1 : q.tail ≤ q.tail + j := Nat.le_add_right _ _
        have hj2 : q.tail + j < q.tail + N := by omega
        have := mod_window_inj hj1 hj2 hI.1 hlt hmm
        omega
      rw [upd_ne _ hne, hdata j hjlt, List.getElem_append_left hjlt]

/-- A successful dequeue on a non-empty queue removes and returns the front
of the abstract FIFO list. -/
theorem Rep_deq {α : Type} {N : Nat} {q : MPMCQueue α} {v : α} {L : List α}
    (hmask : ∀ p : Nat, p &&& (N - 1) = p % N)
    (hR : Rep N q (v :: L)) :
    q.data (q.tail % N) = v ∧ Rep N (deqState N q) L := by
  obtain ⟨hI, hlen, hdata⟩ := hR
  simp only [List.length_cons] at hlen
  have hlt : q.tail < q.head := by omega
  have hNpos : 0 < N := by have := hI.2.1; omega
  constructor
  · have h0 := hdata 0 (by simp)
    simpa using h0
  refine ⟨⟨?_, ?_, ?_⟩, ?_, ?_⟩
  · simp only [deqState]
    omega
  · simp only [deqState]
    have := hI.2.1
    omega
  · intro p hp1 hp2
    simp only [deqState] at hp1 hp2 ⊢
    simp only [hmask]
    by_cases hpt : p = q.tail + N
    · subst hpt
      rw [Nat.add_mod_right, upd_same]
      rw [if_neg (by have := hI.2.1; omega)]
    · have hne : p % N ≠ q.tail % N := by
        intro hmm
        have hp := mod_window_inj (t := q.tail) (by omega) (by omega)
          (Nat.le_refl _) (by omega) hmm
        omega
      rw [upd_ne _ hne, hI.2.2 p (by omega) (by omega)]
  · simp only [deqState]
    omega
  · intro j hj
    simp only [deqState]
    have h1 := hdata (j + 1) (by simp only [List.length_cons]; omega)
    have harr : q.tail + 1 + j = q.tail + (j + 1) := by omega
    rw [harr, h1]
    simp

/-- The capacity-1 defect: an enqueue on the FULL capacity-1 queue still
sees `sequence == pos` (because `pos ≡ pos + 1 (mod 1)`), so it claims the
slot, returns `true`, and overwrites the pending element, driving the state
into `Broken`. -/
theorem enq_full_cap1 {α : Type} {q : MPMCQueue α} {L : List α}
    (hR : Rep 1 q L) (heq : q.head = q.tail + 1) (x : α) :
    enqueue_impl 1 q x = LoopResult.done (true, enqState 1 q x) ∧
    Broken 1 (enqState 1 q x) (L ++ [x]) := by
  obtain ⟨hI, hlen, hdata⟩ := hR
  have hmask : ∀ p : Nat, p &&& (1 - 1) = p % 1 := mask_two_pow 0
  have hs : q.seq (q.head % 1) = q.head := by
    have ht := hI.2.2 q.tail (Nat.le_refl _) (by omega)
    have hmod : q.head % 1 = q.tail % 1 := by omega
    rw [hmod, ht, if_pos (by omega), heq]
  constructor
  · simp only [enqueue_impl, hmask, hs]
    simp
  · refine ⟨rfl, ?_, ?_⟩
    · simp only [enqState, hmask]
      have h0 : q.head % 1 = 0 := Nat.mod_one _
      rw [h0, upd_same]
      omega
    · simp only [enqState, List.length_append, List.length_cons, List.length_nil]
      omega

/-- In a `Broken` (capacity-1, overwritten) state no dequeue ever succeeds:
the sequential `try_dequeue` loop takes the `diff > 0` branch and spins
forever. -/
theorem Broken_deq {α : Type} {N : Nat} {q : MPMCQueue α} {L : List α}
    (hmask : ∀ p : Nat, p &&& (N - 1) = p % N)
    (hB : Broken N q L) (out : α) : try_dequeue N q out = LoopResult.spin := by
  obtain ⟨hN1, hseq, hlen⟩ := hB
  subst hN1
  have h0 : q.tail % 1 = 0 := Nat.mod_one _
  simp only [try_dequeue, hmask, h0]
  rw [if_neg (by omega), if_neg (by omega)]

/-- In a `Broken` state an enqueue either spins, fails leaving the state
unchanged, or succeeds and keeps the state `Broken`. -/
theorem Broken_enq {α : Type} {N : Nat} {q : MPMCQueue α} {L : List α}
    (hmask : ∀ p : Nat, p &&& (N - 1) = p % N)
    (hB : Broken N q L) (x : α) :
    enqueue_impl N q x = LoopResult.spin ∨
    (enqueue_impl N q x = LoopResult.done (false, q) ∧ Broken N q L) ∨
    (enqueue_impl N q x = LoopResult.done (true, enqState N q x) ∧
     Broken N (enqState N q x) (L ++ [x])) := by
  obtain ⟨hN1, hseq, hlen⟩ := hB
  subst hN1
  have h0 : q.head % 1 = 0 := Nat.mod_one _
  by_cases hd0 : ((q.seq 0 : Int) - (q.head : Int)) = 0
  · right; right
    have hsh : q.seq 0 = q.head := by omega
    constructor
    · simp only [enqueue_impl, hmask, h0, hsh]
      simp
    · refine ⟨rfl, ?_, ?_⟩
      · simp only [enqState, hmask, h0]
        rw [upd_same]
        omega
      · simp only [enqState, List.length_append, List.length_cons, List.length_nil]
        omega
  · by_cases hdneg : ((q.seq 0 : Int) - (q.head : Int)) < 0
    · right; left
      refine ⟨?_, rfl, hseq, hlen⟩
      simp only [enqueue_impl, hmask, h0]
      rw [if_neg hd0, if_pos hdneg]
    · left
      simp only [enqueue_impl, hmask, h0]
      rw [if_neg hd0, if_neg hdneg]

/-- If the one-iteration semantics exits with result `r`, the literal
fueled loop, started like the source at `pos = head_`, returns `r` on its
first iteration whatever positive fuel it is given. -/
theorem enqueue_loop_done {α : Type} {N : Nat} {q : MPMCQueue α} {x : α}
    {r : Bool × MPMCQueue α} (h : enqueue_impl N q x = LoopResult.done r)
    (fuel : Nat) : enqueue_loop N q x q.head (fuel + 1) = some r := by
  simp only [enqueue_impl] at h
  simp only [enqueue_loop]
  split_ifs at h ⊢ with h1 h2
  · injection h with h
    rw [← h]
    rfl
  · injection h with h
    rw [← h]

/-- If the one-iteration semantics spins (the `diff > 0` branch), the
literal fueled loop, started at `pos = head_`, exhausts any amount of fuel:
the sequential retry loop never terminates. -/
theorem enqueue_loop_spin {α : Type} {N : Nat} {q : MPMCQueue α} {x : α}
    (h : enqueue_impl N q x = LoopResult.spin) :
    ∀ fuel, enqueue_loop N q x q.head fuel = none := by
  intro fuel
  induction fuel with
  | zero => rfl
  | succ f ih =>
    simp only [enqueue_impl] at h
    split_ifs at h with h1 h2
    simp only [enqueue_loop]
    rw [if_neg h1, if_neg h2]
    exact ih

/-- Dequeue analogue of `enqueue_loop_done`. -/
theorem dequeue_loop_done {α : Type} {N : Nat} {q : MPMCQueue α} {out : α}
    {r : Bool × α × MPMCQueue α} (h : try_dequeue N q out = LoopResult.done r)
    (fuel : Nat) : dequeue_loop N q out q.tail (fuel + 1) = some r := by
  simp only [try_dequeue] at h
  simp only [dequeue_loop]
  split_ifs at h ⊢ with h1 h2
  · injection h with h
    rw [← h]
    rfl
  · injection h with h
    rw [← h]

/-- Dequeue analogue of `enqueue_loop_spin`: a spinning `try_dequeue`
exhausts any amount of fuel. -/
theorem dequeue_loop_spin {α : Type} {N : Nat} {q : MPMCQueue α} {out : α}
    (h : try_dequeue N q out = LoopResult.spin) :
    ∀ fuel, dequeue_loop N q out q.tail fuel = none := by
  intro fuel
  induction fuel with
  | zero => rfl
  | succ f ih =>
    simp only [try_dequeue] at h
    split_ifs at h with h1 h2
    simp only [dequeue_loop]
    rw [if_neg h1, if_neg h2]
    exact ih

/-- Sequential runs compose: the enqueued and dequeued logs of a
concatenation are the concatenations of the logs. -/
theorem run_append {α : Type} (N : Nat) (d : α) :
    ∀ (l1 l2 : List (Op α)) (q q1 q2 : MPMCQueue α) (E1 D1 E2 D2 : List α),
      run N d l1 q = some (q1, E1, D1) →
      run N d l2 q1 = some (q2, E2, D2) →
      run N d (l1 ++ l2) q = some (q2, E1 ++ E2, D1 ++ D2) := by
  intro l1
  induction l1 with
  | nil =>
    intro l2 q q1 q2 E1 D1 E2 D2 h1 h2
    simp only [run, Option.some.injEq, Prod.mk.injEq] at h1
    obtain ⟨rfl, rfl, rfl⟩ := h1
    simpa using h2
  | cons op ops ih =>
    intro l2 q q1 q2 E1 D1 E2 D2 h1 h2
    cases op with
    | enq x =>
      simp only [run, List.cons_append] at h1 ⊢
      cases htry : try_enqueue N q x with
      | spin => rw [htry] at h1; cases h1
      | done r =>
        obtain ⟨ok, qa⟩ := r
        rw [htry] at h1
        dsimp only at h1 ⊢
        cases hrun : run N d ops qa with
        | none => rw [hrun] at h1; cases h1
        | some res =>
          obtain ⟨qb, E, D⟩ := res
          rw [hrun] at h1
          simp only [Option.some.injEq, Prod.mk.injEq] at h1
          obtain ⟨rfl, rfl, rfl⟩ := h1
          rw [List.append_eq, ih l2 qa qb q2 E D E2 D2 hrun h2]
          cases ok <;> simp
    | deq =>
      simp only [run, List.cons_append] at h1 ⊢
      cases htry : try_dequeue N q d with
      | spin => rw [htry] at h1; cases h1
      | done r =>
        obtain ⟨ok, y, qa⟩ := r
        rw [htry] at h1
        dsimp only at h1 ⊢
        cases hrun : run N d ops qa with
        | none => rw [hrun] at h1; cases h1
        | some res =>
          obtain ⟨qb, E, D⟩ := res
          rw [hrun] at h1
          simp only [Option.some.injEq, Prod.mk.injEq] at h1
          obtain ⟨rfl, rfl, rfl⟩ := h1
          rw [List.append_eq, ih l2 qa qb q2 E D E2 D2 hrun h2]
          cases ok <;> simp

/-- Main simulation: a completed sequential run starting from a state that
represents the pending list `L` ends in a state representing some pending
list `L2`, and the dequeued log plus the still-pending values equals the
old pending values plus the enqueued log. -/
theorem run_sim {α : Type} {N : Nat} (d : α)
    (hmask : ∀ p : Nat, p &&& (N - 1) = p % N) (hNpos : 0 < N) :
    ∀ (ops : List (Op α)) (q : MPMCQueue α) (L : List α),
      Sim N q L → ∀ q2 E D, run N d ops q = some (q2, E, D) →
      ∃ L2, Sim N q2 L2 ∧ D ++ L2 = L ++ E := by
  intro ops
  induction ops with
  | nil =>
    intro q L hS q2 E D h
    simp only [run, Option.some.injEq, Prod.mk.injEq] at h
    obtain ⟨rfl, rfl, rfl⟩ := h
    exact ⟨L, hS, by simp⟩
  | cons op rest ih =>
    intro q L hS q2 E D h
    cases op with
    | enq x =>
      simp only [run, try_enqueue] at h
      rcases hS with hR | hB
      · by_cases hlt : q.head < q.tail + N
        · rw [enq_not_full hmask hR.1 hlt x] at h
          dsimp only at h
          cases hrun : run N d rest (enqState N q x) with
          | none => rw [hrun] at h; cases h
          | some res =>
            obtain ⟨qb, Eb, Db⟩ := res
            rw [hrun] at h
            simp only [Option.some.injEq, Prod.mk.injEq] at h
            obtain ⟨rfl, rfl, rfl⟩ := h
            obtain ⟨L2, hS2, hDL⟩ :=
              ih (enqState N q x) (L ++ [x]) (Or.inl (Rep_enq hmask hR hlt x)) qb Eb Db hrun
            exact ⟨L2, hS2, by rw [hDL]; simp⟩
        · have heq : q.head = q.tail + N := by
            have := hR.1.2.1
            omega
          by_cases h2 : 2 ≤ N
          · rw [enq_full hmask hR.1 h2 heq x] at h
            dsimp only at h
            cases hrun : run N d rest q with
            | none => rw [hrun] at h; cases h
            | some res =>
              obtain ⟨qb, Eb, Db⟩ := res
              rw [hrun] at h
              simp only [Option.some.injEq, Prod.mk.injEq] at h
              obtain ⟨rfl, rfl, rfl⟩ := h
              exact ih q L (Or.inl hR) qb Eb Db hrun
          · have hN1 : N = 1 := by omega
            subst hN1
            obtain ⟨he, hB2⟩ := enq_full_cap1 hR heq x
            rw [he] at h
            dsimp only at h
            cases hrun : run 1 d rest (enqState 1 q x) with
            | none => rw [hrun] at h; cases h
            | some res =>
              obtain ⟨qb, Eb, Db⟩ := res
              rw [hrun] at h
              simp only [Option.some.injEq, Prod.mk.injEq] at h
              obtain ⟨rfl, rfl, rfl⟩ := h
              obtain ⟨L2, hS2, hDL⟩ :=
                ih (enqState 1 q x) (L ++ [x]) (Or.inr hB2) qb Eb Db hrun
              exact ⟨L2, hS2, by rw [hDL]; simp⟩
      · rcases Broken_enq hmask hB x with hsp | ⟨he, hB2⟩ | ⟨he, hB2⟩
        · rw [hsp] at h; cases h
        · rw [he] at h
          dsimp only at h
          cases hrun : run N d rest q with
          | none => rw [hrun] at h; cases h
          | some res =>
            obtain ⟨qb, Eb, Db⟩ := res
            rw [hrun] at h
            simp only [Option.some.injEq, Prod.mk.injEq] at h
            obtain ⟨rfl, rfl, rfl⟩ := h
            exact ih q L (Or.inr hB2) qb Eb Db hrun
        · rw [he] at h
          dsimp only at h
          cases hrun : run N d rest (enqState N q x) with
          | none => rw [hrun] at h; cases h
          | some res =>
            obtain ⟨qb, Eb, Db⟩ := res
            rw [hrun] at h
            simp only [Option.some.injEq, Prod.mk.injEq] at h
            obtain ⟨rfl, rfl, rfl⟩ := h
            obtain ⟨L2, hS2, hDL⟩ :=
              ih (enqState N q x) (L ++ [x]) (Or.inr hB2) qb Eb Db hrun
            exact ⟨L2, hS2, by rw [hDL]; simp⟩
    | deq =>
      simp only [run] at h
      rcases hS with hR | hB
      · by_cases hlt : q.tail < q.head
        · cases L with
          | nil =>
            exfalso
            have := hR.2.1
            simp at this
            omega
          | cons v L1 =>
            obtain ⟨hv, hR2⟩ := Rep_deq hmask hR
            rw [deq_nonempty hmask hR.1 hlt d] at h
            dsimp only at h
            cases hrun : run N d rest (deqState N q) with
            | none => rw [hrun] at h; cases h
            | some res =>
              obtain ⟨qb, Eb, Db⟩ := res
              rw [hrun] at h
              simp only [Option.some.injEq, Prod.mk.injEq] at h
              obtain ⟨rfl, rfl, rfl⟩ := h
              obtain ⟨L2, hS2, hDL⟩ :=
                ih (deqState N q) L1 (Or.inl hR2) qb Eb Db hrun
              refine ⟨L2, hS2, ?_⟩
              rw [hv]
              simp [hDL]
        · have heq : q.tail = q.head := by
            have := hR.1.1
            omega
          have hL0 : L = [] := by
            have hlen := hR.2.1
            have : L.length = 0 := by omega
            exact List.eq_nil_of_length_eq_zero this
          subst hL0
          rw [deq_empty hmask hNpos hR.1 heq d] at h
          dsimp only at h
          cases hrun : run N d rest q with
          | none => rw [hrun] at h; cases h
          | some res =>
            obtain ⟨qb, Eb, Db⟩ := res
            rw [hrun] at h
            simp only [Option.some.injEq, Prod.mk.injEq] at h
            obtain ⟨rfl, rfl, rfl⟩ := h
            exact ih q [] (Or.inl hR) qb Eb Db hrun
      · rw [Broken_deq hmask hB d] at h
        cases h

/-- Enqueueing a list of values into a queue with enough free slots
succeeds for every value and appends them all to the pending list. -/
theorem run_enq_list {α : Type} {N : Nat} (d : α)
    (hmask : ∀ p : Nat, p &&& (N - 1) = p % N) :
    ∀ (vs : List α) (q : MPMCQueue α) (L : List α), Rep N q L →
      L.length + vs.length ≤ N →
      ∃ q1, run N d (vs.map Op.enq) q = some (q1, vs, []) ∧ Rep N q1 (L ++ vs) := by
  intro vs
  induction vs with
  | nil =>
    intro q L hR hlen
    exact ⟨q, by simp [run], by simpa using hR⟩
  | cons v vs ih =>
    intro q L hR hlen
    simp only [List.length_cons] at hlen
    have hlt : q.head < q.tail + N := by
      have := hR.2.1
      omega
    have he := enq_not_full hmask hR.1 hlt v
    have hR2 := Rep_enq hmask hR hlt v
    obtain ⟨q1, hrun, hR1⟩ := ih (enqState N q v) (L ++ [v]) hR2 (by simp; omega)
    refine ⟨q1, ?_, by simpa using hR1⟩
    simp only [List.map_cons, run, try_enqueue]
    rw [he]
    dsimp only
    rw [hrun]
    rfl

/-- Draining a queue with `L.length` consecutive dequeues succeeds for
every call and returns exactly the pending values, in FIFO order. -/
theorem run_deq_list {α : Type} {N : Nat} (d : α)
    (hmask : ∀ p : Nat, p &&& (N - 1) = p % N) :
    ∀ (L : List α) (q : MPMCQueue α), Rep N q L →
      ∃ q1, run N d (List.replicate L.length Op.deq) q = some (q1, [], L) ∧
        Rep N q1 [] := by
  intro L
  induction L with
  | nil =>
    intro q hR
    exact ⟨q, by simp [run], hR⟩
  | cons v L1 ih =>
    intro q hR
    have hlt : q.tail < q.head := by
      have := hR.2.1
      simp only [List.length_cons] at this
      omega
    obtain ⟨hv, hR2⟩ := Rep_deq hmask hR
    obtain ⟨q1, hrun, hR1⟩ := ih (deqState N q) hR2
    refine ⟨q1, ?_, hR1⟩
    simp only [List.length_cons, List.replicate_succ, run]
    rw [deq_nonempty hmask hR.1 hlt d]
    dsimp only
    rw [hrun, hv]
    rfl

/-- Any number of fill-to-capacity / drain-to-empty cycles from an empty
queue completes, every operation succeeds, and the dequeued log equals the
enqueued log, across every wrap of the ring index. -/
theorem run_cycles {N : Nat} (hmask : ∀ p : Nat, p &&& (N - 1) = p % N) :
    ∀ (m : Nat) (q : MPMCQueue Nat), Rep N q [] →
      ∃ q1, run N 0 (cycleOps N m) q = some (q1, cycleVals N m, cycleVals N m) ∧
        Rep N q1 [] := by
  intro m
  induction m with
  | zero =>
    intro q hR
    exact ⟨q, by simp [cycleOps, cycleVals, run], hR⟩
  | succ m ih =>
    intro q hR
    obtain ⟨q1, hrun1, hR1⟩ := ih q hR
    obtain ⟨q2, hrun2, hR2⟩ :=
      run_enq_list 0 hmask ((List.range N).map (fun j => m * N + j)) q1 [] hR1 (by simp)
    obtain ⟨q3, hrun3, hR3⟩ :=
      run_deq_list 0 hmask ((List.range N).map (fun j => m * N + j)) q2 (by simpa using hR2)
    have hfo : fillOps N m = ((List.range N).map (fun j => m * N + j)).map Op.enq := by
      simp [fillOps, List.map_map]
    have hdo : drainOps N =
        List.replicate (((List.range N).map (fun j => m * N + j)).length) Op.deq := by
      simp [drainOps]
    have hmid := run_append N 0 (fillOps N m) (drainOps N) q1 q2 q3 _ _ _ _
      (by rw [hfo]; exact hrun2) (by rw [hdo]; exact hrun3)
    have hall := run_append N 0 (cycleOps N m) (fillOps N m ++ drainOps N) q q1 q3 _ _ _ _
      hrun1 hmid
    have hops : cycleOps N (m + 1) = cycleOps N m ++ (fillOps N m ++ drainOps N) := by
      simp [cycleOps, List.range_succ]
    have hvals : cycleVals N (m + 1) =
        cycleVals N m ++ (List.range N).map (fun j => m * N + j) := by
      simp [cycleVals, List.range_succ]
    refine ⟨q3, ?_, hR3⟩
    rw [hops, hvals]
    simpa using hall

/-- C1: Sequential FIFO order.  In any single-threaded execution from a
freshly constructed queue of any power-of-two capacity, for any interleaved
list of `try_enqueue` / `try_dequeue` calls that completes, the list of
successfully dequeued values is exactly the prefix of the list of
successfully enqueued values of its length: the j-th value removed by
`try_dequeue` is the j-th value accepted by `try_enqueue`. -/
theorem fifo_order {α : Type} (k : Nat) (d : α) (ops : List (Op α))
    (q2 : MPMCQueue α) (E D : List α)
    (h : run (2 ^ k) d ops (initQueue d) = some (q2, E, D)) :
    D = E.take D.length := by
  obtain ⟨L2, _, hDL⟩ := run_sim d (mask_two_pow k) (Nat.two_pow_pos k) ops
    (initQueue d) [] (Or.inl (Rep_initQueue _ d)) q2 E D h
  have hE : E = D ++ L2 := by simpa using hDL.symm
  rw [hE]
  exact (List.take_left D L2).symm

/-- Witness for C1: on a capacity-2 queue, the completed run
`enqueue 10; enqueue 20; dequeue; dequeue` dequeues `[10, 20]`, the prefix
of the enqueued log of its length. -/
theorem fifo_order_witness : ([10, 20] : List Nat) = List.take 2 [10, 20] :=
  fifo_order 1 0 [Op.enq 10, Op.enq 20, Op.deq, Op.deq]
    ⟨2, 2, upd (upd (upd (upd (fun i => i) 0 1) 1 2) 0 2) 1 3,
     upd (upd (fun _ => 0) 0 10) 1 20⟩ [10, 20] [10, 20] (by rfl)

/-- C2: the claimed capacity bound fails on the code at `Capacity = 1`
(a positive power of two accepted by the static assertions): starting from
a fresh capacity-1 queue, one enqueue fills the queue, yet the second
`try_enqueue` also returns `true` — the probed cell holds
`sequence = 1 = pos`, because `pos ≡ pos + 1 (mod 1)` — instead of the
`false` required by the claim, and it overwrites the pending element. -/
theorem capacity_bound_cap1 :
    try_enqueue 1 (initQueue (0 : Nat)) 7 =
      LoopResult.done (true, enqState 1 (initQueue 0) 7) ∧
    try_enqueue 1 (enqState 1 (initQueue 0) 7) 8 = LoopResult.done (true, qCap1Two) :=
  ⟨rfl, rfl⟩

/-- C3: round-trip.  On any quiesced queue state satisfying the slot
invariant and holding no pending value (`head = tail`) — in particular any
reachable empty queue, so that the enqueued value is the only one present —
a single `try_enqueue x` succeeds and the `try_dequeue` immediately after
it returns `true` and populates the output location with exactly `x`. -/
theorem round_trip {α : Type} (k : Nat) (q : MPMCQueue α) (x out : α)
    (hI : Inv (2 ^ k) q) (hE : q.head = q.tail) :
    enqueue_impl (2 ^ k) q x = LoopResult.done (true, enqState (2 ^ k) q x) ∧
    try_dequeue (2 ^ k) (enqState (2 ^ k) q x) out =
      LoopResult.done (true, x, deqState (2 ^ k) (enqState (2 ^ k) q x)) := by
  have hNpos : 0 < 2 ^ k := Nat.two_pow_pos k
  have hlt : q.head < q.tail + 2 ^ k := by omega
  have hR : Rep (2 ^ k) q [] := ⟨hI, by simpa using hE, by intro j hj; simp at hj⟩
  constructor
  · exact enq_not_full (mask_two_pow k) hI hlt x
  · have hR2 := Rep_enq (mask_two_pow k) hR hlt x
    have hlt2 : (enqState (2 ^ k) q x).tail < (enqState (2 ^ k) q x).head := by
      simp only [enqState]
      omega
    have hd := deq_nonempty (mask_two_pow k) hR2.1 hlt2 out
    obtain ⟨hv, _⟩ := Rep_deq (mask_two_pow k) (by simpa using hR2)
    rw [hd, hv]

/-- Witness for C3: on the fresh capacity-1 queue, enqueueing 5 and then
dequeueing returns `true` and yields exactly 5. -/
theorem round_trip_witness :
    enqueue_impl 1 (initQueue (0 : Nat)) 5 =
      LoopResult.done (true, enqState 1 (initQueue 0) 5) ∧
    try_dequeue 1 (enqState 1 (initQueue 0) 5) 7 =
      LoopResult.done (true, 5, deqState 1 (enqState 1 (initQueue 0) 5)) :=
  round_trip 0 (initQueue 0) 5 7 (Inv_initQueue 1 0) rfl

/-- C4: wraparound correctness.  For every power-of-two capacity `C = 2^k`
and every number `m` of fill-to-capacity / drain-to-empty cycles from a
fresh queue, every operation succeeds and the dequeued log equals the
enqueued log `cycleVals C m` value for value and in order, across every
wrap of the ring index (each consumed slot having been re-armed with
`sequence = pos + C` by `deqState`); the final queue is empty again. -/
theorem wraparound_cycles (k m : Nat) :
    ∃ q2, run (2 ^ k) 0 (cycleOps (2 ^ k) m) (initQueue 0) =
        some (q2, cycleVals (2 ^ k) m, cycleVals (2 ^ k) m) ∧
      size_approx q2 = 0 := by
  obtain ⟨q2, hrun, hR⟩ := run_cycles (mask_two_pow k) m (initQueue 0)
    (Rep_initQueue _ 0)
  refine ⟨q2, hrun, ?_⟩
  have h1 := hR.2.1
  simp only [List.length_nil, Nat.add_zero] at h1
  simp [size_approx, h1]

/-- C5: failure atomicity.  Whenever `enqueue_impl` returns `false` the
queue state it hands back is exactly the input state (no payload write, no
sequence update, no cursor change — hence for the move overload the
argument was never moved from); whenever `try_dequeue` returns `false` both
the output location and the queue are handed back exactly as they were. -/
theorem failure_atomic {α : Type} (N : Nat) (q : MPMCQueue α) (x out : α) :
    (∀ qe, enqueue_impl N q x = LoopResult.done (false, qe) → qe = q) ∧
    (∀ y qd, try_dequeue N q out = LoopResult.done (false, y, qd) →
      y = out ∧ qd = q) := by
  constructor
  · intro qe h
    simp only [enqueue_impl] at h
    split_ifs at h
    · simp at h
    · simp only [LoopResult.done.injEq, Prod.mk.injEq] at h
      exact h.2.symm
  · intro y qd h
    simp only [try_dequeue] at h
    split_ifs at h
    · simp at h
    · simp only [LoopResult.done.injEq, Prod.mk.injEq] at h
      exact ⟨h.2.1.symm, h.2.2.symm⟩

/-- Witness for C5: the full capacity-2 queue `qFull2` rejects an enqueue
and hands back `qFull2` itself, and the fresh queue rejects a dequeue and
hands back the untouched output value 7 and the unchanged queue. -/
theorem failure_atomic_witness :
    qFull2 = qFull2 ∧ ((7 : Nat) = 7 ∧ initQueue (0 : Nat) = initQueue 0) :=
  ⟨(failure_atomic 2 qFull2 9 7).1 qFull2 rfl,
   (failure_atomic 2 (initQueue (0 : Nat)) 9 7).2 7 (initQueue 0) rfl⟩

/-- C6: the empty half of the claim holds — `try_dequeue` on a fresh queue
returns `false` with the output untouched — but the full half fails on the
code at `Capacity = 1`: after one enqueue the queue is full
(`size_approx = 1 = capacity`), no slot has been freed by any dequeue, yet
the next `try_enqueue` returns `true` instead of `false`. -/
theorem full_enqueue_cap1 :
    try_dequeue 1 (initQueue (0 : Nat)) 9 = LoopResult.done (false, 9, initQueue 0) ∧
    size_approx (enqState 1 (initQueue (0 : Nat)) 7) = 1 ∧
    try_enqueue 1 (enqState 1 (initQueue 0) 7) 8 = LoopResult.done (true, qCap1Two) :=
  ⟨rfl, rfl, rfl⟩

/-- C7: at construction every slot's sequence equals its index (shown here
at cells 0 and 3), but the slot state machine is violated by the code at
`Capacity = 1`: in the reachable state `qCap1Two` (fresh queue, then two
successful enqueues and no dequeue) cell 0 carries `sequence = tail + 2`,
i.e. the slot stepped from FILLED(g) directly to FILLED(g+1) without ever
being consumed, and the slot-sequence invariant `Inv` fails. -/
theorem slot_state_machine_cap1 :
    (initQueue (0 : Nat)).seq 0 = 0 ∧ (initQueue (0 : Nat)).seq 3 = 3 ∧
    qCap1Two.seq 0 = qCap1Two.tail + 2 ∧ ¬ Inv 1 qCap1Two := by
  refine ⟨rfl, rfl, rfl, ?_⟩
  intro hI
  have h2 : qCap1Two.head ≤ qCap1Two.tail + 1 := hI.2.1
  simp [qCap1Two, enqState, initQueue] at h2

/-- C8: observer correctness.  `size_approx` is `head - tail` clamped below
at zero and `empty_approx` tests `size_approx = 0` (both by computation on
the model), and in every quiesced state reached by a completed sequential
run from a fresh queue, `size_approx` equals exactly the number of values
enqueued and not yet dequeued. -/
theorem observer_correct {α : Type} (k : Nat) (d : α) (ops : List (Op α))
    (q2 : MPMCQueue α) (E D : List α)
    (h : run (2 ^ k) d ops (initQueue d) = some (q2, E, D)) :
    size_approx q2 = q2.head - q2.tail ∧
    (empty_approx q2 = true ↔ size_approx q2 = 0) ∧
    D.length ≤ E.length ∧
    size_approx q2 = E.length - D.length := by
  obtain ⟨L2, hS, hDL⟩ := run_sim d (mask_two_pow k) (Nat.two_pow_pos k) ops
    (initQueue d) [] (Or.inl (Rep_initQueue _ d)) q2 E D h
  have hht : q2.tail ≤ q2.head ∧ q2.head = q2.tail + L2.length := by
    rcases hS with hR | hB
    · exact ⟨hR.1.1, hR.2.1⟩
    · refine ⟨?_, hB.2.2⟩
      have := hB.2.2
      omega
  have hlen : D.length + L2.length = E.length := by
    have hc := congrArg List.length hDL
    simpa using hc
  refine ⟨?_, ?_, ?_, ?_⟩
  · simp only [size_approx]
    split <;> omega
  · simp [empty_approx]
  · omega
  · simp only [size_approx]
    split <;> omega

/-- Witness for C8: after the completed run `enqueue 3; enqueue 4; dequeue`
on a capacity-2 queue, `size_approx` is `head - tail = 1`, exactly the 2
values enqueued minus the 1 value dequeued, and the queue is not empty. -/
theorem observer_correct_witness :
    size_approx qObs = qObs.head - qObs.tail ∧
    (empty_approx qObs = true ↔ size_approx qObs = 0) ∧
    (1 : Nat) ≤ 2 ∧ size_approx qObs = 2 - 1 :=
  observer_correct 1 0 [Op.enq 3, Op.enq 4, Op.deq] qObs [3, 4] [3] (by rfl)

/-- C10: sequential termination fails on the code at `Capacity = 1`: the
state `qCap1Two` is reachable by a completed single-threaded run from a
fresh queue (two successful enqueues), it is quiesced and non-empty
(`size_approx = 2`), yet `try_dequeue` takes the `diff > 0` reload-and-retry
branch (`spin`), and the literal fueled loop `dequeue_loop`, started at
`pos = tail_` exactly as the source does, returns in no number of
iterations: the retry loop never terminates. -/
theorem sequential_spin_cap1 :
    run 1 0 [Op.enq 7, Op.enq 8] (initQueue 0) = some (qCap1Two, [7, 8], []) ∧
    size_approx qCap1Two = 2 ∧
    try_dequeue 1 qCap1Two 0 = LoopResult.spin ∧
    ∀ fuel, dequeue_loop 1 qCap1Two 0 qCap1Two.tail fuel = none := by
  refine ⟨rfl, rfl, rfl, ?_⟩
  intro fuel
  exact dequeue_loop_spin (by rfl : try_dequeue 1 qCap1Two 0 = LoopResult.spin) fuel

end MPMC
